import Mathlib

/-!
Verification of the torch-seg training core against its design spec.

The loss functions of `src/torchseg/loss.py` are embedded over the reals:
a tensor is its shape together with its flattened data, elementwise torch
operations become `List.zipWith` / `List.map`, reductions become list sums,
and `tensor.mean()` is `sum / length`.  The epoch orchestration of
`src/torchseg/trainer.py` is embedded as a pure fold over epochs carrying
the best-loss value and the list of persisted checkpoints, parametric in
the (externally produced) per-epoch validation losses.
-/

namespace TorchSeg

/-! ## Tensors -/

/-- A (flattened) tensor: its shape, as reported by `tensor.size()`, and its
data in row-major order.  All the numeric work of the loss functions is over
the flattened data; the shape only feeds the size-equality check. -/
structure Tensor where
  shape : List ℕ
  data : List ℝ

/-- `tensor.mean()`: sum of the elements divided by their number
(division by zero yields the junk value 0 where torch yields NaN). -/
noncomputable def Tensor.mean (t : Tensor) : ℝ := t.data.sum / t.data.length

/-- `torch.sigmoid`, elementwise logistic function. -/
noncomputable def sigmoid (x : ℝ) : ℝ := 1 / (1 + Real.exp (-x))

/-! ## loss.py: dice_loss -/

/-- `dice_loss(logits, target, smooth)` from `loss.py`:
`probs = sigmoid(logits)`, both tensors flattened, and
`(2*intersection + smooth) / (probs.sum() + target.sum() + smooth)`. -/
noncomputable def dice_loss (logits target : Tensor) (smooth : ℝ) : ℝ :=
  let probs := logits.data.map sigmoid
  let iflat := probs
  let tflat := target.data
  let intersection := (List.zipWith (fun a b => a * b) iflat tflat).sum
  (2 * intersection + smooth) / (iflat.sum + tflat.sum + smooth)

/-! ## loss.py: FocalLoss -/

/-- The stabilized per-element binary cross entropy of `FocalLoss.forward`:
`max_val = (-logits).clamp(min=0)` and
`logits - logits*target + max_val + log(exp(-max_val) + exp(-logits-max_val))`. -/
noncomputable def bceStable (x t : ℝ) : ℝ :=
  x - x * t + max (-x) 0 +
    Real.log (Real.exp (-(max (-x) 0)) + Real.exp (-x - max (-x) 0))

/-- One element of the focal loss before the mean reduction:
`invprobs = logsigmoid(-logits * (target*2 - 1))` and the element value
`exp(invprobs * gamma) * bce`. -/
noncomputable def focalElem (gamma x t : ℝ) : ℝ :=
  Real.exp (Real.log (sigmoid (-x * (t * 2 - 1))) * gamma) * bceStable x t

/-- The value `FocalLoss.forward` returns once the size check has passed:
the mean of the elementwise focal losses. -/
noncomputable def focalVal (gamma : ℝ) (logits target : Tensor) : ℝ :=
  Tensor.mean ⟨logits.shape, List.zipWith (focalElem gamma) logits.data target.data⟩

/-- `FocalLoss.forward`: raises `ValueError` when `target.size()` differs from
`logits.size()`, otherwise returns the mean focal loss. -/
noncomputable def FocalLoss.forward (gamma : ℝ) (logits target : Tensor) :
    Except String ℝ :=
  if target.shape = logits.shape then
    Except.ok (focalVal gamma logits target)
  else
    Except.error "Target size must be the same as input size"

/-! ## loss.py: MixedLoss -/

/-- `MixedLoss.forward`: `alpha * focal(logits, target) - log(dice_loss(logits,
target))`, then `.mean()` of the resulting scalar.  The focal term is evaluated
first, so a size mismatch aborts before the dice term is touched. -/
noncomputable def MixedLoss.forward (alpha gamma : ℝ) (logits target : Tensor) :
    Except String ℝ :=
  (FocalLoss.forward gamma logits target).map (fun f =>
    Tensor.mean ⟨[], [alpha * f - Real.log (dice_loss logits target (1e-7))]⟩)

/-! ## Basic facts about sigmoid -/

lemma one_add_exp_pos (x : ℝ) : (0 : ℝ) < 1 + Real.exp (-x) := by
  have := Real.exp_pos (-x); linarith

lemma sigmoid_pos (x : ℝ) : 0 < sigmoid x :=
  div_pos one_pos (one_add_exp_pos x)

lemma sigmoid_lt_one (x : ℝ) : sigmoid x < 1 := by
  have h := one_add_exp_pos x
  have := Real.exp_pos (-x)
  rw [sigmoid, div_lt_one h]
  linarith

lemma sigmoid_le_one (x : ℝ) : sigmoid x ≤ 1 := le_of_lt (sigmoid_lt_one x)

/-- The clamp trick collapses: `bceStable x t = x*(1-t) + log(1 + exp(-x))`. -/
lemma bceStable_closed (x t : ℝ) :
    bceStable x t = x * (1 - t) + Real.log (1 + Real.exp (-x)) := by
  have hE := Real.exp_pos (-x)
  have h1E := one_add_exp_pos x
  have hexp : Real.exp (-x - max (-x) 0) =
      Real.exp (-x) * Real.exp (-(max (-x) 0)) := by
    rw [← Real.exp_add]; ring_nf
  have hfac : Real.exp (-(max (-x) 0)) + Real.exp (-x) * Real.exp (-(max (-x) 0)) =
      Real.exp (-(max (-x) 0)) * (1 + Real.exp (-x)) := by ring
  rw [bceStable, hexp, hfac,
    Real.log_mul (ne_of_gt (Real.exp_pos _)) (ne_of_gt h1E), Real.log_exp]
  ring

lemma log_sigmoid (x : ℝ) :
    Real.log (sigmoid x) = -Real.log (1 + Real.exp (-x)) := by
  rw [sigmoid, one_div, Real.log_inv]

lemma one_sub_sigmoid (x : ℝ) :
    1 - sigmoid x = Real.exp (-x) / (1 + Real.exp (-x)) := by
  have h1E := ne_of_gt (one_add_exp_pos x)
  rw [sigmoid]
  field_simp

lemma log_one_sub_sigmoid (x : ℝ) :
    Real.log (1 - sigmoid x) = -x - Real.log (1 + Real.exp (-x)) := by
  rw [one_sub_sigmoid,
    Real.log_div (ne_of_gt (Real.exp_pos _)) (ne_of_gt (one_add_exp_pos x)),
    Real.log_exp]

/-- C3: the stabilized expression `logits - logits*mask + max(-logits,0) +
log(exp(-max(-logits,0)) + exp(-logits-max(-logits,0)))` computed in
`FocalLoss.forward` equals the binary cross-entropy
`-(mask*log(sigmoid(logits)) + (1-mask)*log(1-sigmoid(logits)))`,
for every real logit `x` and mask value `m`. -/
theorem bce_stable_algebraic (x m : ℝ) :
    bceStable x m =
      -(m * Real.log (sigmoid x) + (1 - m) * Real.log (1 - sigmoid x)) := by
  rw [bceStable_closed, log_sigmoid, log_one_sub_sigmoid]
  ring

/-! ## Dice: range and limit -/

lemma zip_mul_sum_nonneg :
    ∀ (a b : List ℝ), (∀ x ∈ a, 0 ≤ x) → (∀ x ∈ b, 0 ≤ x) →
      0 ≤ (List.zipWith (fun p q => p * q) a b).sum
  | [], _, _, _ => by simp
  | _ :: _, [], _, _ => by simp
  | p :: a, q :: b, ha, hb => by
    simp only [List.zipWith_cons_cons, List.sum_cons]
    have h1 := mul_nonneg (ha p (by simp)) (hb q (by simp))
    have h2 := zip_mul_sum_nonneg a b (fun x hx => ha x (by simp [hx]))
      (fun x hx => hb x (by simp [hx]))
    linarith

lemma two_zip_mul_sum_le :
    ∀ (a b : List ℝ), (∀ x ∈ a, 0 ≤ x ∧ x ≤ 1) → (∀ x ∈ b, 0 ≤ x ∧ x ≤ 1) →
      2 * (List.zipWith (fun p q => p * q) a b).sum ≤ a.sum + b.sum
  | [], b, _, hb => by
    have := List.sum_nonneg (fun x hx => (hb x hx).1)
    simp only [List.zipWith_nil_left, List.sum_nil, mul_zero]
    linarith
  | p :: a, [], ha, _ => by
    have h1 := List.sum_nonneg (fun x hx => (ha x (List.mem_cons_of_mem p hx)).1)
    have h2 := (ha p (by simp)).1
    simp only [List.zipWith_nil_right, List.sum_nil, mul_zero, List.sum_cons]
    linarith
  | p :: a, q :: b, ha, hb => by
    simp only [List.zipWith_cons_cons, List.sum_cons]
    have hp := ha p (by simp)
    have hq := hb q (by simp)
    have h2 := two_zip_mul_sum_le a b (fun x hx => ha x (by simp [hx]))
      (fun x hx => hb x (by simp [hx]))
    nlinarith [hp.1, hp.2, hq.1, hq.2]

lemma probs_bounds (l : List ℝ) : ∀ x ∈ l.map sigmoid, 0 ≤ x ∧ x ≤ 1 := by
  intro x hx
  rcases List.mem_map.mp hx with ⟨y, _, rfl⟩
  exact ⟨le_of_lt (sigmoid_pos y), sigmoid_le_one y⟩

lemma dice_range (logits target : Tensor)
    (hmask : ∀ m ∈ target.data, 0 ≤ m ∧ m ≤ 1) :
    0 < dice_loss logits target (1e-7) ∧ dice_loss logits target (1e-7) ≤ 1 := by
  have hp := probs_bounds logits.data
  have hS := zip_mul_sum_nonneg (logits.data.map sigmoid) target.data
    (fun x hx => (hp x hx).1) (fun x hx => (hmask x hx).1)
  have hle := two_zip_mul_sum_le (logits.data.map sigmoid) target.data hp hmask
  have heps : (0:ℝ) < 1e-7 := by norm_num
  have hPsum := List.sum_nonneg (fun x hx => (hp x hx).1)
  have hTsum := List.sum_nonneg (fun x hx => (hmask x hx).1)
  simp only [dice_loss]
  constructor
  · exact div_pos (by linarith) (by linarith)
  · rw [div_le_one (by linarith)]
    linarith

/-- The dice similarity as a function of a probability vector and a mask
vector of a fixed length, with explicit sums; used to state the limiting
behavior of `dice_loss` as the probabilities approach the mask. -/
noncomputable def diceGeneral (n : ℕ) (p m : Fin n → ℝ) (smooth : ℝ) : ℝ :=
  (2 * ∑ i, p i * m i + smooth) / ((∑ i, p i) + (∑ i, m i) + smooth)

lemma zipWith_ofFn_eq {α β γ : Type} (f : α → β → γ) :
    ∀ (n : ℕ) (a : Fin n → α) (b : Fin n → β),
      List.zipWith f (List.ofFn a) (List.ofFn b) = List.ofFn fun i => f (a i) (b i)
  | 0, _, _ => by simp
  | n + 1, a, b => by
    rw [List.ofFn_succ a, List.ofFn_succ b, List.zipWith_cons_cons,
      zipWith_ofFn_eq f n, List.ofFn_succ (fun i => f (a i) (b i))]

lemma dice_loss_ofFn (n : ℕ) (lf mf : Fin n → ℝ) (s s' : List ℕ) :
    dice_loss ⟨s, List.ofFn lf⟩ ⟨s', List.ofFn mf⟩ (1e-7) =
      diceGeneral n (fun i => sigmoid (lf i)) mf (1e-7) := by
  simp only [dice_loss, diceGeneral, List.map_ofFn, zipWith_ofFn_eq, List.sum_ofFn,
    Function.comp]

lemma diceGeneral_tendsto (n : ℕ) (mf : Fin n → ℝ)
    (hm : ∀ i, mf i = 0 ∨ mf i = 1) :
    Filter.Tendsto (fun p : Fin n → ℝ => diceGeneral n p mf (1e-7))
      (nhds mf) (nhds 1) := by
  have hsum : (0:ℝ) ≤ ∑ i, mf i :=
    Finset.sum_nonneg fun i _ => by rcases hm i with h | h <;> simp [h]
  have heps : (0:ℝ) < 1e-7 := by norm_num
  have hden : (∑ i, mf i) + (∑ i, mf i) + (1e-7:ℝ) ≠ 0 := by
    apply ne_of_gt; linarith
  have hnum : Continuous fun p : Fin n → ℝ => 2 * ∑ i, p i * mf i + (1e-7:ℝ) :=
    (continuous_const.mul (continuous_finset_sum Finset.univ fun i _ =>
      (continuous_apply i).mul continuous_const)).add continuous_const
  have hden2 : Continuous fun p : Fin n → ℝ => (∑ i, p i) + (∑ i, mf i) + (1e-7:ℝ) :=
    ((continuous_finset_sum Finset.univ fun i _ => continuous_apply i).add
      continuous_const).add continuous_const
  have hc : ContinuousAt (fun p : Fin n → ℝ => diceGeneral n p mf (1e-7)) mf :=
    ContinuousAt.div hnum.continuousAt hden2.continuousAt hden
  have hval : diceGeneral n mf mf (1e-7) = 1 := by
    have hmm : ∑ i, mf i * mf i = ∑ i, mf i :=
      Finset.sum_congr rfl fun i _ => by rcases hm i with h | h <;> simp [h]
    rw [diceGeneral, hmm]
    have hnd : 2 * (∑ i, mf i) + (1e-7:ℝ) = (∑ i, mf i) + (∑ i, mf i) + 1e-7 := by
      ring
    rw [hnd]
    exact div_self hden
  have ht := hc.tendsto
  rwa [hval] at ht

/-- C2: `dice_loss` with `smooth = 1e-7` is exactly
`(2*Σ(sigmoid(logits)*mask) + ε) / (Σ sigmoid(logits) + Σ mask + ε)`;
for mask values in `[0,1]` its value lies in `(0, 1]`; and (via the
fixed-length form `diceGeneral`) it tends to `1` as the probability vector
`sigmoid(logits)` tends to the (binary) mask exactly. -/
theorem dice_spec :
    (∀ (logits target : Tensor),
        dice_loss logits target (1e-7) =
          (2 * (List.zipWith (fun a b => a * b) (logits.data.map sigmoid)
              target.data).sum + 1e-7) /
            ((logits.data.map sigmoid).sum + target.data.sum + 1e-7)) ∧
    (∀ (logits target : Tensor), (∀ m ∈ target.data, 0 ≤ m ∧ m ≤ 1) →
        0 < dice_loss logits target (1e-7) ∧ dice_loss logits target (1e-7) ≤ 1) ∧
    (∀ (n : ℕ) (lf mf : Fin n → ℝ) (s s' : List ℕ),
        dice_loss ⟨s, List.ofFn lf⟩ ⟨s', List.ofFn mf⟩ (1e-7) =
          diceGeneral n (fun i => sigmoid (lf i)) mf (1e-7)) ∧
    (∀ (n : ℕ) (mf : Fin n → ℝ), (∀ i, mf i = 0 ∨ mf i = 1) →
        Filter.Tendsto (fun p : Fin n → ℝ => diceGeneral n p mf (1e-7))
          (nhds mf) (nhds 1)) :=
  ⟨fun _ _ => rfl, dice_range, dice_loss_ofFn, diceGeneral_tendsto⟩

/-- Witness for C2 at a concrete input: logits `[0]`, mask `[1]`. -/
theorem dice_spec_wit :
    (0 < dice_loss ⟨[1], [0]⟩ ⟨[1], [1]⟩ (1e-7) ∧
      dice_loss ⟨[1], [0]⟩ ⟨[1], [1]⟩ (1e-7) ≤ 1) ∧
    Filter.Tendsto (fun p : Fin 1 → ℝ => diceGeneral 1 p (fun _ => 1) (1e-7))
      (nhds fun _ => 1) (nhds 1) :=
  ⟨dice_spec.2.1 ⟨[1], [0]⟩ ⟨[1], [1]⟩
      (by intro m hm; simp only [List.mem_singleton] at hm; subst hm; norm_num),
    dice_spec.2.2.2 1 (fun _ => 1) (fun _ => Or.inr rfl)⟩

/-! ## Focal loss: strict positivity -/

lemma bceStable_pos (x m : ℝ) (hm : m = 0 ∨ m = 1) : 0 < bceStable x m := by
  rcases hm with h | h <;> subst h <;> rw [bceStable_closed]
  · have h1 : Real.exp x * (1 + Real.exp (-x)) = Real.exp x + 1 := by
      rw [mul_add, mul_one, ← Real.exp_add]
      simp
    have h2 : x + Real.log (1 + Real.exp (-x)) = Real.log (Real.exp x + 1) := by
      rw [← h1, Real.log_mul (ne_of_gt (Real.exp_pos x))
        (ne_of_gt (one_add_exp_pos x)), Real.log_exp]
    have h3 : (1:ℝ) < Real.exp x + 1 := by have := Real.exp_pos x; linarith
    have h4 := Real.log_pos h3
    calc (0:ℝ) < Real.log (Real.exp x + 1) := h4
      _ = x * (1 - 0) + Real.log (1 + Real.exp (-x)) := by rw [← h2]; ring
  · have h3 : (1:ℝ) < 1 + Real.exp (-x) := by have := Real.exp_pos (-x); linarith
    have h4 := Real.log_pos h3
    calc (0:ℝ) < Real.log (1 + Real.exp (-x)) := h4
      _ = x * (1 - 1) + Real.log (1 + Real.exp (-x)) := by ring

lemma focalElem_pos (gamma x m : ℝ) (hm : m = 0 ∨ m = 1) :
    0 < focalElem gamma x m :=
  mul_pos (Real.exp_pos _) (bceStable_pos x m hm)

lemma zip_focal_sum_nonneg (gamma : ℝ) :
    ∀ (a b : List ℝ), (∀ m ∈ b, m = 0 ∨ m = 1) →
      0 ≤ (List.zipWith (focalElem gamma) a b).sum
  | [], _, _ => by simp
  | _ :: _, [], _ => by simp
  | p :: a, q :: b, hb => by
    simp only [List.zipWith_cons_cons, List.sum_cons]
    have h1 := focalElem_pos gamma p q (hb q (by simp))
    have h2 := zip_focal_sum_nonneg gamma a b (fun m hm => hb m (by simp [hm]))
    linarith

lemma focal_mean_pos (gamma : ℝ) (a b : List ℝ) (hlen : a.length = b.length)
    (hne : a ≠ []) (hbin : ∀ m ∈ b, m = 0 ∨ m = 1) :
    0 < (List.zipWith (focalElem gamma) a b).sum /
      ((List.zipWith (focalElem gamma) a b).length : ℝ) := by
  match a, b, hlen, hne, hbin with
  | [], _, _, hne, _ => exact (hne rfl).elim
  | p :: a, [], hlen, _, _ => simp at hlen
  | p :: a, q :: b, _, _, hb =>
    apply div_pos
    · simp only [List.zipWith_cons_cons, List.sum_cons]
      have h1 := focalElem_pos gamma p q (hb q (by simp))
      have h2 := zip_focal_sum_nonneg gamma a b (fun m hm => hb m (by simp [hm]))
      linarith
    · simp only [List.zipWith_cons_cons, List.length_cons]
      positivity

/-- C4 (amended): on every NONEMPTY logits tensor with a binary mask of the
same shape, `FocalLoss.forward` succeeds and its value is a strictly positive
real number. -/
theorem focal_pos_spec (gamma : ℝ) (logits target : Tensor)
    (hshape : target.shape = logits.shape)
    (hlen : logits.data.length = target.data.length)
    (hne : logits.data ≠ [])
    (hbin : ∀ m ∈ target.data, m = 0 ∨ m = 1) :
    ∃ v : ℝ, FocalLoss.forward gamma logits target = Except.ok v ∧ 0 < v := by
  refine ⟨focalVal gamma logits target, by rw [FocalLoss.forward, if_pos hshape], ?_⟩
  rw [focalVal, Tensor.mean]
  exact focal_mean_pos gamma logits.data target.data hlen hne hbin

/-- Witness for C4 (amended) at the one-pixel input: logit `0`, mask `1`. -/
theorem focal_pos_spec_wit :
    ∃ v : ℝ, FocalLoss.forward 4 ⟨[1], [0]⟩ ⟨[1], [1]⟩ = Except.ok v ∧ 0 < v :=
  focal_pos_spec 4 ⟨[1], [0]⟩ ⟨[1], [1]⟩ rfl rfl (by simp)
    (fun m hm => by simp only [List.mem_singleton] at hm; exact Or.inr hm)

/-- C4 counterexample: the empty tensor (shape `[0]`, no elements) is a finite
logits/mask pair of identical shape, yet the mean over zero elements is the
division `0 / 0` (NaN in torch, junk `0` in this real-valued model), which is
not strictly positive — so the claim fails without a nonemptiness hypothesis. -/
theorem focal_empty_cex :
    FocalLoss.forward 4 ⟨[0], []⟩ ⟨[0], []⟩ = Except.ok 0 ∧ ¬ (0:ℝ) < 0 := by
  constructor
  · rw [FocalLoss.forward, if_pos rfl]
    simp [focalVal, Tensor.mean]
  · exact lt_irrefl 0

/-! ## MixedLoss: combination and shape check -/

lemma scalar_mean (x : ℝ) : Tensor.mean ⟨[], [x]⟩ = x := by
  simp [Tensor.mean]

/-- C1: with `alpha = 9.0`, `gamma = 4.0` (the trainer's `MixedLoss(9.0, 4.0)`),
`MixedLoss.forward` on same-shaped inputs returns exactly
`alpha * focal(logits, mask) - log(dice(logits, mask))`, and the final `.mean()`
is the identity on the scalar it is applied to. -/
theorem mixedLoss_combination (logits target : Tensor)
    (hshape : logits.shape = target.shape) :
    MixedLoss.forward 9 4 logits target =
      Except.ok (9 * focalVal 4 logits target -
        Real.log (dice_loss logits target (1e-7))) ∧
    (∀ x : ℝ, Tensor.mean ⟨[], [x]⟩ = x) := by
  refine ⟨?_, scalar_mean⟩
  rw [MixedLoss.forward, FocalLoss.forward, if_pos hshape.symm]
  simp only [Except.map]
  rw [scalar_mean]

/-- Witness for C1 at the one-pixel input: logit `0`, mask `0`. -/
theorem mixedLoss_combination_wit :
    MixedLoss.forward 9 4 ⟨[1], [0]⟩ ⟨[1], [0]⟩ =
      Except.ok (9 * focalVal 4 ⟨[1], [0]⟩ ⟨[1], [0]⟩ -
        Real.log (dice_loss ⟨[1], [0]⟩ ⟨[1], [0]⟩ (1e-7))) :=
  (mixedLoss_combination ⟨[1], [0]⟩ ⟨[1], [0]⟩ rfl).1

/-- C5: `MixedLoss.forward` signals the shape-mismatch error exactly when the
two shapes differ — the focal term's size check fires before any numeric work
and nothing is broadcast — and on equal shapes it returns a value. -/
theorem mixedLoss_shape_check (alpha gamma : ℝ) (logits target : Tensor) :
    (logits.shape ≠ target.shape →
      MixedLoss.forward alpha gamma logits target =
        Except.error "Target size must be the same as input size") ∧
    (logits.shape = target.shape →
      ∃ v, MixedLoss.forward alpha gamma logits target = Except.ok v) := by
  constructor
  · intro h
    rw [MixedLoss.forward, FocalLoss.forward, if_neg (fun hh => h hh.symm)]
    rfl
  · intro h
    rw [MixedLoss.forward, FocalLoss.forward, if_pos h.symm]
    exact ⟨_, rfl⟩

/-- Witness for C5: a mismatched pair errors, an equal-shape pair succeeds. -/
theorem mixedLoss_shape_check_wit :
    MixedLoss.forward 9 4 ⟨[1], [0]⟩ ⟨[2], [0, 0]⟩ =
      Except.error "Target size must be the same as input size" ∧
    ∃ v, MixedLoss.forward 9 4 ⟨[1], [0]⟩ ⟨[1], [0]⟩ = Except.ok v :=
  ⟨(mixedLoss_shape_check 9 4 ⟨[1], [0]⟩ ⟨[2], [0, 0]⟩).1 (by decide),
    (mixedLoss_shape_check 9 4 ⟨[1], [0]⟩ ⟨[1], [0]⟩).2 rfl⟩

/-! ## trainer.py: the epoch orchestration of Trainer.start

`Trainer.start` loops `epoch = 1 .. num_epochs`; each epoch runs
`iterate(epoch, "train")`, then, when `epoch % 5 == 0`, runs
`iterate(epoch, "val")`, steps the scheduler, and if
`val_loss < self.best_loss` sets `best_loss = val_loss` and saves a
checkpoint `{epoch, best_loss = val_loss, ...}`.  The loop is embedded as a
pure fold: the externally produced validation losses are an oracle
`v : ℕ → α` over an arbitrary linear order `α` (the finite floats), and
`best_loss` lives in `WithTop α`, whose top element is the initial
`float("inf")`. -/

inductive Phase
  | train
  | val
deriving DecidableEq

/-- The data persisted by `torch.save` that the claims speak about:
the epoch and the new best loss (`state["best_loss"] = self.best_loss =
val_loss` right before the save).  Model/optimizer state dicts are opaque
external state and are not modelled. -/
structure Checkpoint (α : Type) where
  epoch : ℕ
  best_loss : α
deriving DecidableEq

/-- The orchestrator state across epochs: `self.best_loss` and the history of
checkpoint saves (each `torch.save` overwrites the same file; the list records
the successive saves), plus the log of phases run, in order. -/
structure RunState (α : Type) where
  best_loss : WithTop α
  checkpoints : List (Checkpoint α)
  log : List (ℕ × Phase)
deriving DecidableEq

/-- State before any epoch: `self.best_loss = float("inf")`, nothing saved. -/
def initState (α : Type) : RunState α := ⟨⊤, [], []⟩

/-- One iteration of the `for epoch in range(1, num_epochs + 1)` body of
`Trainer.start`. -/
def epochStep {α : Type} [LinearOrder α] (v : ℕ → α) (epoch : ℕ)
    (s : RunState α) : RunState α :=
  let s1 : RunState α := { s with log := s.log ++ [(epoch, Phase.train)] }
  if epoch % 5 = 0 then
    let s2 : RunState α := { s1 with log := s1.log ++ [(epoch, Phase.val)] }
    if (v epoch : WithTop α) < s2.best_loss then
      { s2 with best_loss := (v epoch : WithTop α),
                checkpoints := s2.checkpoints ++ [⟨epoch, v epoch⟩] }
    else s2
  else s1

/-- `Trainer.start` for `num_epochs = N`: epochs `1 .. N` in order. -/
def run {α : Type} [LinearOrder α] (v : ℕ → α) : ℕ → RunState α
  | 0 => initState α
  | n + 1 => epochStep v (n + 1) (run v n)

lemma epochStep_log {α : Type} [LinearOrder α] (v : ℕ → α) (e : ℕ)
    (s : RunState α) :
    (epochStep v e s).log =
      s.log ++ ((e, Phase.train) ::
        (if e % 5 = 0 then [(e, Phase.val)] else [])) := by
  by_cases h5 : e % 5 = 0
  · by_cases hlt : (v e : WithTop α) < s.best_loss <;> simp [epochStep, h5, hlt]
  · simp [epochStep, h5]

lemma epochStep_best {α : Type} [LinearOrder α] (v : ℕ → α) (e : ℕ)
    (s : RunState α) :
    (epochStep v e s).best_loss =
      if e % 5 = 0 ∧ (v e : WithTop α) < s.best_loss then (v e : WithTop α)
      else s.best_loss := by
  by_cases h5 : e % 5 = 0
  · by_cases hlt : (v e : WithTop α) < s.best_loss <;> simp [epochStep, h5, hlt]
  · simp [epochStep, h5]

lemma epochStep_cp {α : Type} [LinearOrder α] (v : ℕ → α) (e : ℕ)
    (s : RunState α) :
    (epochStep v e s).checkpoints =
      if e % 5 = 0 ∧ (v e : WithTop α) < s.best_loss then
        s.checkpoints ++ [⟨e, v e⟩]
      else s.checkpoints := by
  by_cases h5 : e % 5 = 0
  · by_cases hlt : (v e : WithTop α) < s.best_loss <;> simp [epochStep, h5, hlt]
  · simp [epochStep, h5]

/-- The phase schedule, independent of losses: every epoch runs TRAIN, and
epochs divisible by 5 then run VALIDATE. -/
def phaseLog : ℕ → List (ℕ × Phase)
  | 0 => []
  | n + 1 => phaseLog n ++ ((n + 1, Phase.train) ::
      (if (n + 1) % 5 = 0 then [(n + 1, Phase.val)] else []))

lemma run_log {α : Type} [LinearOrder α] (v : ℕ → α) :
    ∀ N, (run v N).log = phaseLog N
  | 0 => rfl
  | N + 1 => by
    rw [run, epochStep_log, run_log v N, phaseLog]

lemma mem_phaseLog_train : ∀ N e, (e, Phase.train) ∈ phaseLog N ↔ 1 ≤ e ∧ e ≤ N
  | 0, e => by simp [phaseLog]; omega
  | N + 1, e => by
    by_cases h5 : (N + 1) % 5 = 0 <;>
      simp [phaseLog, h5, mem_phaseLog_train N e, Prod.ext_iff] <;> omega

lemma mem_phaseLog_val :
    ∀ N e, (e, Phase.val) ∈ phaseLog N ↔ 1 ≤ e ∧ e ≤ N ∧ e % 5 = 0
  | 0, e => by simp [phaseLog]; omega
  | N + 1, e => by
    by_cases h5 : (N + 1) % 5 = 0 <;>
      simp [phaseLog, h5, mem_phaseLog_val N e, Prod.ext_iff] <;> omega

/-- C7: in a run over epochs `1..N`, the TRAIN phase runs for exactly the
epochs `1 ≤ e ≤ N` and the VALIDATE phase for exactly those with
`e % 5 = 0` (the hardcoded validation cadence); with `N = 10` exactly the
two validation phases of epochs 5 and 10 run. -/
theorem trainer_phase_spec :
    (∀ (α : Type) [LinearOrder α] (v : ℕ → α) (N e : ℕ),
        ((e, Phase.train) ∈ (run v N).log ↔ 1 ≤ e ∧ e ≤ N) ∧
        ((e, Phase.val) ∈ (run v N).log ↔ 1 ≤ e ∧ e ≤ N ∧ e % 5 = 0)) ∧
    (∀ v : ℕ → ℚ,
        ((run v 10).log.filter fun p => p.2 == Phase.val) =
          [(5, Phase.val), (10, Phase.val)]) := by
  constructor
  · intro α _ v N e
    rw [run_log v N]
    exact ⟨mem_phaseLog_train N e, mem_phaseLog_val N e⟩
  · intro v
    rw [run_log v 10]
    decide

/-- Witness for C7 at `N = 10` with a concrete loss oracle. -/
theorem trainer_phase_spec_wit :
    (5, Phase.val) ∈ (run (fun _ => (0:ℚ)) 10).log ∧
    ((run (fun _ => (0:ℚ)) 10).log.filter fun p => p.2 == Phase.val) =
      [(5, Phase.val), (10, Phase.val)] :=
  ⟨((trainer_phase_spec.1 ℚ (fun _ => 0) 10 5).2).mpr (by decide),
    trainer_phase_spec.2 (fun _ => 0)⟩

lemma run_cp_epoch_bound {α : Type} [LinearOrder α] (v : ℕ → α) :
    ∀ N, ∀ c ∈ (run v N).checkpoints, 1 ≤ c.epoch ∧ c.epoch ≤ N ∧ c.epoch % 5 = 0
  | 0 => by simp [run, initState]
  | N + 1 => by
    intro c hc
    rw [run, epochStep_cp] at hc
    by_cases h : (N + 1) % 5 = 0 ∧ (v (N + 1) : WithTop α) < (run v N).best_loss
    · rw [if_pos h] at hc
      rcases List.mem_append.mp hc with hc | hc
      · have := run_cp_epoch_bound v N c hc
        omega
      · simp only [List.mem_singleton] at hc
        subst hc
        exact ⟨Nat.succ_le_succ (Nat.zero_le N), le_refl _, h.1⟩
    · rw [if_neg h] at hc
      have := run_cp_epoch_bound v N c hc
      omega

lemma run_cp_mem_iff {α : Type} [LinearOrder α] (v : ℕ → α) :
    ∀ N e, (∃ c ∈ (run v N).checkpoints, c.epoch = e) ↔
      (1 ≤ e ∧ e ≤ N ∧ e % 5 = 0 ∧
        (v e : WithTop α) < (run v (e - 1)).best_loss)
  | 0, e => by
    constructor
    · rintro ⟨c, hc, -⟩
      exact absurd hc (List.not_mem_nil c)
    · rintro ⟨h1, h2, -, -⟩
      exact absurd h1 (by omega)
  | N + 1, e => by
    rw [run, epochStep_cp]
    by_cases h : (N + 1) % 5 = 0 ∧ (v (N + 1) : WithTop α) < (run v N).best_loss
    · rw [if_pos h]
      constructor
      · rintro ⟨c, hc, rfl⟩
        rcases List.mem_append.mp hc with hc | hc
        · have hb := (run_cp_mem_iff v N c.epoch).mp ⟨c, hc, rfl⟩
          exact ⟨hb.1, by omega, hb.2.2⟩
        · simp only [List.mem_singleton] at hc
          subst hc
          exact ⟨Nat.succ_le_succ (Nat.zero_le N), le_refl _, h.1,
            by simpa using h.2⟩
      · rintro ⟨h1, h2, h3, h4⟩
        by_cases he : e = N + 1
        · subst he
          exact ⟨⟨N + 1, v (N + 1)⟩,
            List.mem_append.mpr (Or.inr (by simp)), rfl⟩
        · obtain ⟨c, hc, hce⟩ :=
            (run_cp_mem_iff v N e).mpr ⟨h1, by omega, h3, h4⟩
          exact ⟨c, List.mem_append.mpr (Or.inl hc), hce⟩
    · rw [if_neg h, run_cp_mem_iff v N e]
      constructor
      · rintro ⟨h1, h2, h3, h4⟩
        exact ⟨h1, by omega, h3, h4⟩
      · rintro ⟨h1, h2, h3, h4⟩
        refine ⟨h1, ?_, h3, h4⟩
        rcases Nat.lt_or_ge e (N + 1) with hlt | hge
        · omega
        · exfalso
          have he : e = N + 1 := by omega
          subst he
          exact h ⟨h3, by simpa using h4⟩

lemma run_best_getLast {α : Type} [LinearOrder α] (v : ℕ → α) :
    ∀ N, (run v N).best_loss =
      ((run v N).checkpoints.getLast?.map
        fun c => (c.best_loss : WithTop α)).getD ⊤
  | 0 => by simp [run, initState]
  | N + 1 => by
    rw [run, epochStep_best, epochStep_cp]
    by_cases h : (N + 1) % 5 = 0 ∧ (v (N + 1) : WithTop α) < (run v N).best_loss
    · rw [if_pos h, if_pos h, List.getLast?_concat]
      rfl
    · rw [if_neg h, if_neg h]
      exact run_best_getLast v N

lemma run_cp_chain {α : Type} [LinearOrder α] (v : ℕ → α) :
    ∀ N, List.Chain' (fun a b => b < a)
      ((run v N).checkpoints.map fun c => c.best_loss)
  | 0 => by simp [run, initState]
  | N + 1 => by
    rw [run, epochStep_cp]
    by_cases h : (N + 1) % 5 = 0 ∧ (v (N + 1) : WithTop α) < (run v N).best_loss
    · rw [if_pos h, List.map_append]
      refine List.Chain'.append (run_cp_chain v N) (by simp) ?_
      intro x hx y hy
      simp only [List.map_cons, List.map_nil, List.head?_cons,
        Option.mem_def, Option.some.injEq] at hy
      subst hy
      have hlast := run_best_getLast v N
      rw [List.getLast?_map] at hx
      simp only [Option.mem_def, Option.map_eq_some'] at hx
      obtain ⟨c, hc, rfl⟩ := hx
      have hb : (run v N).best_loss = (c.best_loss : WithTop α) := by
        rw [hlast, hc]
        rfl
      have := h.2
      rw [hb] at this
      exact WithTop.coe_lt_coe.mp this
    · rw [if_neg h]
      exact run_cp_chain v N

/-- C6: a checkpoint with epoch `e` is persisted in a run over epochs `1..N`
iff epoch `e` ran a validation phase (`1 ≤ e ≤ N`, `e % 5 = 0`) and its
validation loss was strictly below `best_loss` at entry to the comparison;
one epoch updates `best_loss` and appends a checkpoint exactly under that
condition and otherwise changes neither; and the `best_loss` values along the
checkpointed history are monotonically non-increasing. -/
theorem trainer_checkpoint_spec (α : Type) [LinearOrder α] (v : ℕ → α)
    (N : ℕ) :
    (∀ e : ℕ, (∃ c ∈ (run v N).checkpoints, c.epoch = e) ↔
        (1 ≤ e ∧ e ≤ N ∧ e % 5 = 0 ∧
          (v e : WithTop α) < (run v (e - 1)).best_loss)) ∧
    (∀ e : ℕ,
        (((e + 1) % 5 = 0 ∧ (v (e + 1) : WithTop α) < (run v e).best_loss) →
          (run v (e + 1)).best_loss = (v (e + 1) : WithTop α) ∧
          (run v (e + 1)).checkpoints =
            (run v e).checkpoints ++ [⟨e + 1, v (e + 1)⟩]) ∧
        (¬((e + 1) % 5 = 0 ∧ (v (e + 1) : WithTop α) < (run v e).best_loss) →
          (run v (e + 1)).best_loss = (run v e).best_loss ∧
          (run v (e + 1)).checkpoints = (run v e).checkpoints)) ∧
    List.Chain' (fun a b => b ≤ a)
      ((run v N).checkpoints.map fun c => c.best_loss) := by
  refine ⟨run_cp_mem_iff v N, ?_, ?_⟩
  · intro e
    constructor
    · intro h
      rw [run, epochStep_best, epochStep_cp, if_pos h, if_pos h]
      exact ⟨rfl, rfl⟩
    · intro h
      rw [run, epochStep_best, epochStep_cp, if_neg h, if_neg h]
      exact ⟨rfl, rfl⟩
  · exact List.Chain'.imp (fun a b hab => le_of_lt hab) (run_cp_chain v N)

/-- Witness for C6 at a concrete run: with constant loss oracle `0 : ℚ`,
epoch 1 is not a validation epoch, so nothing changes at its end. -/
theorem trainer_checkpoint_spec_wit :
    (run (fun _ => (0:ℚ)) 1).best_loss = (run (fun _ => (0:ℚ)) 0).best_loss ∧
    (run (fun _ => (0:ℚ)) 1).checkpoints = (run (fun _ => (0:ℚ)) 0).checkpoints :=
  ((trainer_checkpoint_spec ℚ (fun _ => 0) 1).2.1 0).2
    (fun hh => absurd hh.1 (by decide))

/-- C10: `best_loss` starts at `float("inf")` (the top element), so the first
validation phase that completes (epoch 5, in every run with `N ≥ 5`) always
saves a checkpoint, whose stored best loss is that epoch's validation loss. -/
theorem first_validation_checkpoints (α : Type) [LinearOrder α] (v : ℕ → α)
    (N : ℕ) (hN : 5 ≤ N) :
    (initState α).best_loss = ⊤ ∧
    ∃ rest, (run v N).checkpoints = ⟨5, v 5⟩ :: rest := by
  refine ⟨rfl, ?_⟩
  have h4best : (run v 4).best_loss = ⊤ := by
    simp [run, epochStep_best, initState]
  have h4cp : (run v 4).checkpoints = [] := by
    simp [run, epochStep_cp, initState]
  have h5 : (run v 5).checkpoints = [⟨5, v 5⟩] := by
    show (epochStep v 5 (run v 4)).checkpoints = _
    rw [epochStep_cp, if_pos ⟨rfl, h4best ▸ WithTop.coe_lt_top (v 5)⟩, h4cp]
    rfl
  have key : ∀ k, ∃ rest, (run v (5 + k)).checkpoints = ⟨5, v 5⟩ :: rest := by
    intro k
    induction k with
    | zero => exact ⟨[], h5⟩
    | succ k ih =>
      obtain ⟨rest, hrest⟩ := ih
      have : 5 + (k + 1) = (5 + k) + 1 := by omega
      rw [this, run, epochStep_cp]
      by_cases h : ((5 + k) + 1) % 5 = 0 ∧
          (v ((5 + k) + 1) : WithTop α) < (run v (5 + k)).best_loss
      · rw [if_pos h, hrest]
        exact ⟨rest ++ [⟨(5 + k) + 1, v ((5 + k) + 1)⟩], by simp⟩
      · rw [if_neg h, hrest]
        exact ⟨rest, rfl⟩
  obtain ⟨rest, hrest⟩ := key (N - 5)
  have : 5 + (N - 5) = N := by omega
  rw [this] at hrest
  exact ⟨rest, hrest⟩

/-- Witness for C10 at `N = 5` with a concrete loss oracle. -/
theorem first_validation_checkpoints_wit :
    (initState ℚ).best_loss = ⊤ ∧
    ∃ rest, (run (fun _ => (0:ℚ)) 5).checkpoints = ⟨5, 0⟩ :: rest :=
  first_validation_checkpoints ℚ (fun _ => 0) 5 (by decide)

/-! ## trainer.py: the per-batch optimizer protocol of Trainer.iterate

`Trainer.iterate` calls `optimizer.zero_grad()` once before the batch loop;
for each batch, after the forward pass, the train phase runs
`loss.backward(); optimizer.step(); optimizer.zero_grad()` while the val
phase runs none of them.  The optimizer calls are embedded as a trace, and
the gradient buffer as a fold over that trace. -/

inductive OptOp (β : Type)
  | zero
  | backward (b : β)
  | step
deriving DecidableEq

/-- The optimizer calls made by the batch loop of `Trainer.iterate` for a
list of batches. -/
def batchOps {β : Type} (phase : Phase) : List β → List (OptOp β)
  | [] => []
  | b :: bs =>
    (if phase = Phase.train then [OptOp.backward b, OptOp.step, OptOp.zero]
      else []) ++ batchOps phase bs

/-- All optimizer calls of `Trainer.iterate`: the `optimizer.zero_grad()`
before the loop, then the per-batch calls. -/
def iterateOps {β : Type} (phase : Phase) (batches : List β) : List (OptOp β) :=
  OptOp.zero :: batchOps phase batches

/-- Semantics of the accumulated-gradient buffer: `zero_grad` empties it,
`backward` adds the current batch's gradient to it, `step` leaves it. -/
def gradStep {β : Type} (g : List β) : OptOp β → List β
  | OptOp.zero => []
  | OptOp.backward b => g ++ [b]
  | OptOp.step => g

/-- Gradient buffer contents after a sequence of optimizer calls. -/
def gradAfter {β : Type} (ops : List (OptOp β)) : List β :=
  ops.foldl gradStep []

/-- Accumulates, along a trace, the buffer contents consumed by each
`optimizer.step()`. -/
def stepsRec {β : Type} (acc : List β × List (List β)) :
    OptOp β → List β × List (List β)
  | OptOp.zero => ([], acc.2)
  | OptOp.backward b => (acc.1 ++ [b], acc.2)
  | OptOp.step => (acc.1, acc.2 ++ [acc.1])

/-- The gradients consumed by the successive optimizer updates of a trace. -/
def stepsApplied {β : Type} (ops : List (OptOp β)) : List (List β) :=
  (ops.foldl stepsRec ([], [])).2

lemma batchOps_train_cons {β : Type} (b : β) (bs : List β) :
    batchOps Phase.train (b :: bs) =
      OptOp.backward b :: OptOp.step :: OptOp.zero :: batchOps Phase.train bs := by
  simp [batchOps]

lemma batchOps_val_nil {β : Type} : ∀ bs : List β, batchOps Phase.val bs = []
  | [] => rfl
  | b :: bs => by simp [batchOps, batchOps_val_nil bs]

lemma gradFold_batchOps {β : Type} :
    ∀ (bs : List β) (l r : List (OptOp β)) (b : β),
      batchOps Phase.train bs = l ++ OptOp.backward b :: r →
      List.foldl gradStep ([] : List β) l = []
  | [], l, r, b, h => absurd h (by cases l <;> simp [batchOps])
  | b0 :: bs, [], r, b, h => rfl
  | b0 :: bs, [x], r, b, h => by
    rw [batchOps_train_cons] at h
    simp at h
  | b0 :: bs, [x, y], r, b, h => by
    rw [batchOps_train_cons] at h
    simp at h
  | b0 :: bs, x :: y :: z :: l3, r, b, h => by
    rw [batchOps_train_cons] at h
    simp only [List.cons_append, List.cons.injEq] at h
    obtain ⟨rfl, rfl, rfl, h3⟩ := h
    simp only [List.foldl_cons, gradStep]
    exact gradFold_batchOps bs l3 r b h3

lemma stepsFold_batchOps {β : Type} :
    ∀ (bs : List β) (u : List (List β)),
      (batchOps Phase.train bs).foldl stepsRec ([], u) =
        ([], u ++ bs.map fun b => [b])
  | [], u => by simp [batchOps]
  | b0 :: bs, u => by
    rw [batchOps_train_cons]
    simp only [List.foldl_cons, stepsRec, List.nil_append]
    rw [stepsFold_batchOps bs (u ++ [[b0]])]
    simp

/-- C8: along the optimizer-call trace of a train phase, the accumulated
gradient buffer is empty whenever a `backward` begins; the successive
optimizer updates consume exactly one single-batch gradient per batch, in
order (gradients are never accumulated across batches); and a val phase
performs no `backward` and no `step` (only the initial `zero_grad`). -/
theorem iterate_grad_spec (β : Type) :
    (∀ (bs : List β) (l r : List (OptOp β)) (b : β),
        iterateOps Phase.train bs = l ++ OptOp.backward b :: r →
        gradAfter l = []) ∧
    (∀ bs : List β,
        stepsApplied (iterateOps Phase.train bs) = bs.map fun b => [b]) ∧
    (∀ bs : List β, iterateOps Phase.val bs = [OptOp.zero]) := by
  refine ⟨?_, ?_, ?_⟩
  · intro bs l r b h
    cases l with
    | nil => rfl
    | cons x l1 =>
      rw [iterateOps] at h
      simp only [List.cons_append, List.cons.injEq] at h
      obtain ⟨rfl, h2⟩ := h
      rw [gradAfter]
      simp only [List.foldl_cons, gradStep]
      exact gradFold_batchOps bs l1 r b h2
  · intro bs
    rw [iterateOps, stepsApplied]
    simp only [List.foldl_cons, stepsRec]
    rw [stepsFold_batchOps bs []]
    simp
  · intro bs
    rw [iterateOps, batchOps_val_nil bs]

/-- Witness for C8 on the one-batch trace `[7]`. -/
theorem iterate_grad_spec_wit :
    gradAfter ([OptOp.zero] : List (OptOp ℕ)) = [] ∧
    stepsApplied (iterateOps Phase.train [7]) = [[7]] ∧
    iterateOps Phase.val ([] : List ℕ) = [OptOp.zero] :=
  ⟨(iterate_grad_spec ℕ).1 [7] [OptOp.zero] [OptOp.step, OptOp.zero] 7 (by decide),
    (iterate_grad_spec ℕ).2.1 [7], (iterate_grad_spec ℕ).2.2 []⟩

/-! ## Meter (metrics.py), modelled from the spec

`trainer.py` imports `Meter` from `torchseg.metrics`, but `metrics.py` is
not among the sources; the accumulator below is modelled from spec §4.2. -/

/-- Modelled from the spec: the fixed candidate threshold grid of the missing
`metrics.py` (`Meter`) — a coarse grid in `[0,1]`, `{0.3, 0.4, 0.5, 0.6, 0.7}`. -/
def thresholds : List ℚ := [3/10, 2/5, 1/2, 3/5, 7/10]

/-- Modelled from the spec: per-threshold confusion counts (TP, FP, TN, FN),
non-negative integers accumulated additively. -/
structure Confusion where
  tp : ℕ
  fp : ℕ
  tn : ℕ
  fn : ℕ
deriving DecidableEq

def Confusion.add (c d : Confusion) : Confusion :=
  ⟨c.tp + d.tp, c.fp + d.fp, c.tn + d.tn, c.fn + d.fn⟩

/-- Modelled from the spec: the confusion contribution of one pixel with
ground-truth value `mask` and predicted probability `prob`, binarized at
threshold `thr`: the prediction is positive when `prob` exceeds the
threshold, the ground truth is positive when `mask = 1`. -/
noncomputable def pixelConfusion (thr : ℚ) (mask prob : ℝ) : Confusion :=
  if (thr : ℝ) < prob then
    if mask = 1 then ⟨1, 0, 0, 0⟩ else ⟨0, 1, 0, 0⟩
  else
    if mask = 1 then ⟨0, 0, 0, 1⟩ else ⟨0, 0, 1, 0⟩

/-- Modelled from the spec: the `Meter` state — the phase and epoch it was
constructed with and the running per-threshold confusion totals. -/
structure Meter where
  phase : Phase
  epoch : ℕ
  counts : List Confusion

/-- Modelled from the spec: a fresh accumulator with all counts zero. -/
def Meter.init (phase : Phase) (epoch : ℕ) : Meter :=
  ⟨phase, epoch, thresholds.map fun _ => ⟨0, 0, 0, 0⟩⟩

/-- Modelled from the spec: `update(mask_batch, logits_batch)` — converts
logits to probabilities via sigmoid and, for every candidate threshold,
adds the binarized batch's confusion counts to the running totals.  A batch
is its list of (mask value, logit) pixels. -/
noncomputable def updateCounts (batch : List (ℝ × ℝ)) (counts : List Confusion) :
    List Confusion :=
  List.zipWith
    (fun c thr =>
      batch.foldl (fun acc px => acc.add (pixelConfusion thr px.1 (sigmoid px.2))) c)
    counts thresholds

/-- Modelled from the spec: the state after one `update` call. -/
noncomputable def Meter.update (m : Meter) (batch : List (ℝ × ℝ)) : Meter :=
  { m with counts := updateCounts batch m.counts }

/-- Modelled from the spec: per-threshold Dice with the ε-guard. -/
noncomputable def Confusion.diceScore (c : Confusion) : ℝ :=
  2 * (c.tp : ℝ) / (2 * (c.tp : ℝ) + (c.fp : ℝ) + (c.fn : ℝ) + 1e-7)

/-- Modelled from the spec: per-threshold IoU with the ε-guard. -/
noncomputable def Confusion.iouScore (c : Confusion) : ℝ :=
  (c.tp : ℝ) / ((c.tp : ℝ) + (c.fp : ℝ) + (c.fn : ℝ) + 1e-7)

/-- Modelled from the spec: per-threshold pixel accuracy. -/
noncomputable def Confusion.accScore (c : Confusion) : ℝ :=
  ((c.tp : ℝ) + (c.tn : ℝ)) /
    ((c.tp : ℝ) + (c.fp : ℝ) + (c.tn : ℝ) + (c.fn : ℝ))

/-- Modelled from the spec: select the entry maximizing IoU, ties broken
toward the earlier (smaller) threshold of the grid. -/
noncomputable def selectBest : List (ℚ × Confusion) → Option (ℚ × Confusion)
  | [] => none
  | x :: xs => some (xs.foldl (fun best y =>
      if best.2.iouScore < y.2.iouScore then y else best) x)

/-- Modelled from the spec: `summarize` — the epoch-level
(Dice, IoU, Accuracy, chosen threshold) at the IoU-maximizing threshold. -/
noncomputable def Meter.summarize (m : Meter) : ℝ × ℝ × ℝ × ℚ :=
  match selectBest (List.zipWith (fun thr c => (thr, c)) thresholds m.counts) with
  | none => (0, 0, 0, 0)
  | some (thr, c) => (c.diceScore, c.iouScore, c.accScore, thr)

lemma Confusion.add_zero_right (c : Confusion) : c.add ⟨0, 0, 0, 0⟩ = c := by
  cases c
  simp [Confusion.add]

lemma Confusion.add_zero_left (c : Confusion) :
    Confusion.add ⟨0, 0, 0, 0⟩ c = c := by
  cases c
  simp [Confusion.add]

lemma Confusion.add_assoc (a b c : Confusion) :
    (a.add b).add c = a.add (b.add c) := by
  cases a
  cases b
  cases c
  simp [Confusion.add, Nat.add_assoc]

lemma Confusion.add_comm (a b : Confusion) : a.add b = b.add a := by
  cases a
  cases b
  simp [Confusion.add, Nat.add_comm]

/-- The total confusion contribution of a batch at one threshold. -/
noncomputable def batchTotal (thr : ℚ) (batch : List (ℝ × ℝ)) : Confusion :=
  batch.foldl (fun acc px => acc.add (pixelConfusion thr px.1 (sigmoid px.2)))
    ⟨0, 0, 0, 0⟩

lemma foldl_confusion (thr : ℚ) :
    ∀ (batch : List (ℝ × ℝ)) (c : Confusion),
      batch.foldl (fun acc px => acc.add (pixelConfusion thr px.1 (sigmoid px.2))) c =
        c.add (batchTotal thr batch)
  | [], c => by simp [batchTotal, Confusion.add_zero_right]
  | px :: batch, c => by
    simp only [batchTotal, List.foldl_cons, Confusion.add_zero_left]
    rw [foldl_confusion thr batch (c.add (pixelConfusion thr px.1 (sigmoid px.2))),
      foldl_confusion thr batch (pixelConfusion thr px.1 (sigmoid px.2)),
      Confusion.add_assoc]

lemma batchTotal_append (thr : ℚ) (a b : List (ℝ × ℝ)) :
    batchTotal thr (a ++ b) = (batchTotal thr a).add (batchTotal thr b) := by
  rw [batchTotal, List.foldl_append]
  exact foldl_confusion thr b (batchTotal thr a)

lemma zipWith_zipWith_same {α β γ δ : Type} (f : γ → β → δ) (g : α → β → γ) :
    ∀ (xs : List α) (ys : List β),
      List.zipWith f (List.zipWith g xs ys) ys =
        List.zipWith (fun x y => f (g x y) y) xs ys
  | [], _ => by simp
  | _ :: _, [] => by simp
  | x :: xs, y :: ys => by
    simp only [List.zipWith_cons_cons]
    rw [zipWith_zipWith_same f g xs ys]

lemma updateCounts_append (a b : List (ℝ × ℝ)) (counts : List Confusion) :
    updateCounts b (updateCounts a counts) = updateCounts (a ++ b) counts := by
  rw [updateCounts, updateCounts, updateCounts, zipWith_zipWith_same]
  have hfun : (fun (c : Confusion) (thr : ℚ) =>
      b.foldl (fun acc px => acc.add (pixelConfusion thr px.1 (sigmoid px.2)))
        (a.foldl (fun acc px => acc.add (pixelConfusion thr px.1 (sigmoid px.2))) c)) =
      (fun (c : Confusion) (thr : ℚ) =>
      (a ++ b).foldl (fun acc px => acc.add (pixelConfusion thr px.1 (sigmoid px.2))) c) := by
    funext c thr
    simp [List.foldl_append]
  rw [hfun]

lemma updateCounts_comm (a b : List (ℝ × ℝ)) (counts : List Confusion) :
    updateCounts (a ++ b) counts = updateCounts (b ++ a) counts := by
  rw [updateCounts, updateCounts]
  have hfun : (fun (c : Confusion) (thr : ℚ) =>
      (a ++ b).foldl (fun acc px => acc.add (pixelConfusion thr px.1 (sigmoid px.2))) c) =
      (fun (c : Confusion) (thr : ℚ) =>
      (b ++ a).foldl (fun acc px => acc.add (pixelConfusion thr px.1 (sigmoid px.2))) c) := by
    funext c thr
    rw [foldl_confusion thr (a ++ b) c, foldl_confusion thr (b ++ a) c,
      batchTotal_append, batchTotal_append,
      Confusion.add_comm (batchTotal thr a) (batchTotal thr b)]
  rw [hfun]

lemma Meter.update_append (m : Meter) (a b : List (ℝ × ℝ)) :
    (m.update a).update b = m.update (a ++ b) := by
  simp only [Meter.update]
  rw [updateCounts_append]

lemma Meter.update_comm (m : Meter) (a b : List (ℝ × ℝ)) :
    (m.update a).update b = (m.update b).update a := by
  rw [Meter.update_append, Meter.update_append]
  simp only [Meter.update]
  rw [updateCounts_comm]

lemma zipWith_fst {α β : Type} :
    ∀ (xs : List α) (ys : List β), xs.length ≤ ys.length →
      List.zipWith (fun x _ => x) xs ys = xs
  | [], _, _ => by simp
  | x :: xs, [], h => by simp at h
  | x :: xs, y :: ys, h => by
    simp only [List.zipWith_cons_cons]
    rw [zipWith_fst xs ys (by simpa using h)]

lemma updateCounts_nil (counts : List Confusion)
    (h : counts.length ≤ thresholds.length) : updateCounts [] counts = counts := by
  rw [updateCounts]
  simp only [List.foldl_nil]
  exact zipWith_fst counts thresholds h

lemma Meter.update_nil (m : Meter) (hm : m.counts.length ≤ thresholds.length) :
    m.update [] = m := by
  simp only [Meter.update, updateCounts_nil m.counts hm]

/-- The pixels of a list of batches, in order. -/
def concatChunks : List (List (ℝ × ℝ)) → List (ℝ × ℝ)
  | [] => []
  | c :: cs => c ++ concatChunks cs

lemma foldl_update_chunks :
    ∀ (chunks : List (List (ℝ × ℝ))) (m : Meter),
      m.counts.length ≤ thresholds.length →
      chunks.foldl Meter.update m = m.update (concatChunks chunks)
  | [], m, hm => by
    simp only [List.foldl_nil, concatChunks]
    exact (Meter.update_nil m hm).symm
  | c :: cs, m, hm => by
    simp only [List.foldl_cons, concatChunks]
    have hlen : (m.update c).counts.length ≤ thresholds.length := by
      simp only [Meter.update, updateCounts, List.length_zipWith]
      exact min_le_right _ _
    rw [foldl_update_chunks cs (m.update c) hlen]
    exact Meter.update_append m c (concatChunks cs)

/-- C9 (spec-modelled `Meter`): confusion accumulation is additive and
order-independent — updating with two batches in either order equals one
update with their concatenation — so feeding an epoch's pixels in one big
batch or split into chunks gives the same accumulator state and hence the
same Dice/IoU/Accuracy summary. -/
theorem meter_additivity :
    (∀ (m : Meter) (a b : List (ℝ × ℝ)),
        (m.update a).update b = m.update (a ++ b) ∧
        (m.update a).update b = (m.update b).update a) ∧
    (∀ (phase : Phase) (epoch : ℕ) (chunks : List (List (ℝ × ℝ))),
        chunks.foldl Meter.update (Meter.init phase epoch) =
          (Meter.init phase epoch).update (concatChunks chunks) ∧
        (chunks.foldl Meter.update (Meter.init phase epoch)).summarize =
          ((Meter.init phase epoch).update (concatChunks chunks)).summarize) := by
  constructor
  · exact fun m a b => ⟨Meter.update_append m a b, Meter.update_comm m a b⟩
  · intro phase epoch chunks
    have h := foldl_update_chunks chunks (Meter.init phase epoch)
      (by simp [Meter.init])
    exact ⟨h, by rw [h]⟩

end TorchSeg
